import Mathlib

/-!
Verification of the chronicle receiver engine (EOSTribe/eos-chronicle,
src/chronicle-receiver/receiver_plugin.cpp and chain_state_types.hpp).

The receiver consumes decoded `get_blocks_result_v0` frames, maintains a
revisioned persistent store (receiver state singleton, received-block ring,
contract ABI records), detects forks, applies an action blacklist to traces,
and paces itself with an exponential backpressure pause.

Shallow embedding conventions:
  - `checksum256` values are compared only for equality in the source, so they
    are modelled as `Nat`.
  - `abieos::name` is a u64 whose encoding of valid account strings is
    injective; names are modelled as `String`.
  - Machine integers are modelled as `Nat`; the only places where u32 overflow
    can occur (`head - exporter_acked_block` in `check_pause`, and
    `pause_time_msec * 2`) carry an explicit `% 2^32`.
  - Binary decoding of wire payloads is out of scope: frames arrive with their
    payloads already decoded, and decode failures of nested payloads are
    represented by row data of the wrong shape.
  - Channel `publish` is modelled by returning the list of published events in
    order; `has_subscribers()` is a boolean per channel in `Subs`.
-/

namespace Chronicle

/-- checksum256: the source compares digests only via `.value` equality. -/
abbrev Checksum256 := Nat

/-- abieos::name, u64 whose string encoding is injective on valid names. -/
abbrev Name := String

/-- chain_state::block_position. -/
structure BlockPosition where
  block_num : Nat
  block_id : Checksum256
deriving Repr, DecidableEq

/-- chronicle::state_object (singleton receiver state in the store). -/
structure StateObject where
  head : Nat
  head_id : Checksum256
  irreversible : Nat
  irreversible_id : Checksum256
deriving Repr, DecidableEq

/-- chronicle::received_block_object (one ring entry). -/
structure ReceivedBlock where
  block_index : Nat
  block_id : Checksum256
deriving Repr, DecidableEq

/-- chronicle::contract_abi_object (one stored ABI record). -/
structure ContractAbi where
  account : Name
  abi : List Nat
deriving Repr, DecidableEq

/-- Contents of the three chainbase indexes.  `recblocks` is the
received-block ring ordered ascending by `block_index` (the `by_blocknum`
ordered_unique index); `abis` is keyed by account (`by_name` index). -/
structure StoreData where
  state : Option StateObject
  recblocks : List ReceivedBlock
  abis : List ContractAbi
deriving Repr, DecidableEq

/-- Modelled from the spec: the revisioned persistent store (chainbase is an
external dependency, not part of this repository).  Spec section 3: revisions
are numbered by block_num; `set_revision(n)` renumbers the store so that the
scope materialized for the current frame becomes revision `n`;
`start_undo_scope` snapshots the data; `push` materializes the scope as the
next revision; `undo` discards the top scope restoring the snapshot;
`commit(n)` fuses all scopes with revision at most `n` into the baseline so
they can no longer be undone.  `rev` is the revision of the last materialized
scope.  `stack` is newest-first; each entry pairs a scope's revision with the
data as it was before that scope.  `commits` is a history variable recording
every `commit` call's revision argument, newest first. -/
structure Db where
  rev : Nat
  cur : StoreData
  stack : List (Nat × StoreData)
  commits : List Nat
deriving Repr, DecidableEq

/-- Modelled from the spec: `set_revision(n)` positions the store so that the
scope pushed for the current frame materializes as revision `n`. -/
def Db.setRevision (d : Db) (n : Nat) : Db :=
  { d with rev := n - 1 }

/-- Modelled from the spec: `undo` discards the top scope, restoring the data
snapshot taken when the scope was opened.  At the baseline (empty stack) it is
a no-op here; the source's undo loop would spin forever in that situation and
all theorems keep it unreachable. -/
def Db.undo (d : Db) : Db :=
  match d.stack with
  | [] => d
  | (r, before) :: rest => { d with rev := r - 1, cur := before, stack := rest }

/-- Modelled from the spec: `push` materializes the open scope (whose
pre-mutation snapshot is `snapshot`) as the next revision. -/
def Db.pushScope (d : Db) (snapshot : StoreData) : Db :=
  { d with rev := d.rev + 1, stack := (d.rev + 1, snapshot) :: d.stack }

/-- Modelled from the spec: `commit(n)` fuses all scopes with revision at most
`n` into the durable baseline (removing them from the undo stack, oldest
first) and records the call in the `commits` history. -/
def Db.commit (d : Db) (n : Nat) : Db :=
  { d with stack := ((d.stack.reverse.dropWhile (fun e => e.1 ≤ n)).reverse),
           commits := n :: d.commits }

/-- chronicle::channels fork reasons used by the receiver. -/
inductive ForkReason
  | network
  | restart
deriving Repr, DecidableEq

/-- chain_state::action_trace, restricted to the fields the receiver reads
(`account` and `name` of the action; the remaining payload fields do not
influence any control flow in receiver_plugin.cpp). -/
structure ActionTrace where
  account : Name
  name : Name
deriving Repr, DecidableEq

/-- chain_state::transaction_trace, restricted to the `traces` vector (the
only field the receiver inspects). -/
structure TransactionTrace where
  traces : List ActionTrace
deriving Repr, DecidableEq

/-- Events published on the chronicle channels, with the fields the source
fills in (block payload bytes and timestamps that no claim mentions are
omitted). -/
inductive Event
  | fork (block_num : Nat) (depth : Nat) (reason : ForkReason)
  | blockEv (block_num : Nat) (last_irreversible : Nat)
  | blockTableDelta (tname : String)
  | transactionTrace (block_num : Nat) (trace : TransactionTrace)
  | abiUpdate (block_num : Nat) (account : Name) (abi_bytes : List Nat)
  | abiRemoval (block_num : Nat) (account : Name)
  | abiError (block_num : Nat) (account : Name) (error : String)
  | tableRowUpdate (block_num : Nat) (code : Name) (added : Bool)
  | receiverPause (head : Nat) (acknowledged : Nat)
deriving Repr, DecidableEq

/-- Per-channel `has_subscribers()` answers. -/
structure Subs where
  transaction_traces : Bool
  abi_updates : Bool
  table_row_updates : Bool
  abi_errors : Bool
deriving Repr, DecidableEq

/-- Capabilities of the external abieos library: whether
`abieos_set_abi_bin` accepts a contract ABI, and whether `bin_to_native`
can re-decode the ABI bytes into an `abi_def` for the update event. -/
structure Env where
  validAbi : Name → List Nat → Bool
  abiDecodes : List Nat → Bool

/-- In-memory fields of receiver_plugin_impl that frame processing touches.
`contract_abi_imported` is the set of accounts loaded into the additive
abieos decode context; destroying and recreating the context
(init_contract_abi_ctxt) empties it. -/
structure Receiver where
  db : Db
  head : Nat
  head_id : Checksum256
  irreversible : Nat
  irreversible_id : Checksum256
  aborting : Bool
  exporter_will_ack : Bool
  exporter_acked_block : Nat
  contract_abi_imported : List Name
  blacklist_actions : List (Name × List Name)
  block_timestamp : Nat
deriving Repr, DecidableEq

/-- chain_state::account_object, restricted to the fields the receiver reads
(`name` and the `abi` bytes). -/
structure AccountObject where
  name : Name
  abi : List Nat
deriving Repr, DecidableEq

/-- chain_state::key_value_object, restricted to the `code` field (the only
one the receiver's contract_row path reads). -/
structure KeyValueObject where
  code : Name
deriving Repr, DecidableEq

/-- Decoded contents of one table_delta row's opaque `data` blob.  A
constructor of the wrong shape for the table models a row whose binary data
does not decode as the expected type. -/
inductive RowData
  | accountRow (acc : AccountObject)
  | kvRow (kvo : KeyValueObject)
  | otherRow
deriving Repr, DecidableEq

/-- chain_state::row. -/
structure DeltaRow where
  present : Bool
  data : RowData
deriving Repr, DecidableEq

/-- chain_state::table_delta_v0. -/
structure TableDelta where
  name : String
  rows : List DeltaRow
deriving Repr, DecidableEq

/-- chain_state::get_blocks_result_v0 with its payloads already decoded:
`block` is the signed block's header timestamp (the only part of the block
the receiver keeps), and `traces` and `deltas` are the decompressed, decoded
sequences.  `head` is carried on the wire but never read by the receiver. -/
structure GetBlocksResult where
  head : BlockPosition
  last_irreversible : BlockPosition
  this_block : Option BlockPosition
  prev_block : Option BlockPosition
  block : Option Nat
  traces : Option (List TransactionTrace)
  deltas : Option (List TableDelta)
deriving Repr, DecidableEq

/-- u32 wrap-around subtraction, as computed by `head - exporter_acked_block`
on uint32_t values. -/
def sub32 (a b : Nat) : Nat :=
  (a % 2 ^ 32 + 2 ^ 32 - b % 2 ^ 32) % 2 ^ 32

/-- Inputs of receiver_plugin_impl::check_pause: the impl fields it reads
plus the appbase priority-queue size and configured maximum. -/
structure PauseState where
  slowdown_requested : Bool
  exporter_will_ack : Bool
  head : Nat
  exporter_acked_block : Nat
  exporter_max_unconfirmed : Nat
  pause_time_msec : Nat
  queue_size : Nat
  max_queue_size : Nat
deriving Repr, DecidableEq

/-- Outcome of check_pause: whether the caller may read at once, the updated
`slowdown_requested` and `pause_time_msec` fields, and the published events. -/
structure CheckPauseResult where
  proceed : Bool
  slowdown_requested : Bool
  pause_time_msec : Nat
  events : List Event
deriving Repr, DecidableEq

/-- receiver_plugin_impl::check_pause (receiver_plugin.cpp lines 340-371).
When pausing it clears `slowdown_requested`, sets the pause to 100 ms if it
was 0 and doubles it if it is below 8000 ms, and publishes a receiver_pause
event whenever the resulting pause is at least 2000 ms. -/
def check_pause (st : PauseState) : CheckPauseResult :=
  if st.slowdown_requested
      || (st.exporter_will_ack
            && decide (st.exporter_max_unconfirmed ≤ sub32 st.head st.exporter_acked_block))
      || decide (st.max_queue_size < st.queue_size) then
    let p :=
      if st.pause_time_msec = 0 then 100
      else if st.pause_time_msec < 8000 then st.pause_time_msec * 2 % 2 ^ 32
      else st.pause_time_msec
    { proceed := false
      slowdown_requested := false
      pause_time_msec := p
      events := if 2000 ≤ p then [Event.receiverPause st.head st.exporter_acked_block] else [] }
  else
    { proceed := true
      slowdown_requested := st.slowdown_requested
      pause_time_msec := st.pause_time_msec
      events := [] }

/-- The backpressure scenario of the claim: acknowledgement enabled with
`max_unconfirmed = 1`, no slowdown request, empty priority queue, and the
given head and acknowledged block. -/
def backpressureState (head acked p : Nat) : PauseState :=
  { slowdown_requested := false
    exporter_will_ack := true
    head := head
    exporter_acked_block := acked
    exporter_max_unconfirmed := 1
    pause_time_msec := p
    queue_size := 0
    max_queue_size := 10000 }

/-- Successive pause durations under continuous frame arrival in the
backpressure scenario: the pause value after `n` consecutive pauses,
starting from the initial `pause_time_msec = 0`. -/
def pauseIter (head acked : Nat) : Nat → Nat
  | 0 => 0
  | n + 1 => (check_pause (backpressureState head acked (pauseIter head acked n))).pause_time_msec

/-- receiver_plugin_impl::receive_traces (lines 716-746): decides whether a
decoded transaction trace's first action is blacklisted. -/
def first_action_blacklisted (bl : List (Name × List Name)) (tr : TransactionTrace) : Bool :=
  match tr.traces with
  | [] => false
  | a0 :: _ =>
    match bl.find? (fun p => p.1 = a0.account) with
    | none => false
    | some p => p.2.contains a0.name

/-- receiver_plugin_impl::receive_traces (lines 716-746): when the
transaction_traces channel has subscribers, publish every decoded trace whose
first action is not blacklisted, stamped with the current head block. -/
def receive_traces (bl : List (Name × List Name)) (subscribed : Bool)
    (head : Nat) (traces : List TransactionTrace) : List Event :=
  if subscribed then
    traces.filterMap (fun tr =>
      if first_action_blacklisted bl tr then none
      else some (Event.transactionTrace head tr))
  else []

/-- The action blacklist installed by receiver_plugin::plugin_initialize
(lines 882-887). -/
def default_blacklist : List (Name × List Name) :=
  [("eosio", ["onblock"]), ("blocktwitter", ["tweet"])]

/-- Keyed insertion into the contract ABI index (`db->modify` on an existing
record, `db->create` otherwise). -/
def upsertAbi (account : Name) (data : List Nat) : List ContractAbi → List ContractAbi
  | [] => [⟨account, data⟩]
  | e :: rest =>
    if e.account = account then ⟨account, data⟩ :: rest
    else e :: upsertAbi account data rest

/-- Removal from the contract ABI index (`db->remove`). -/
def removeAbi (account : Name) : List ContractAbi → List ContractAbi
  | [] => []
  | e :: rest => if e.account = account then rest else e :: removeAbi account rest

/-- receiver_plugin_impl::save_contract_abi (lines 649-698).  If the account
is already imported into the decode context, the context is rebuilt first
(the context is additive-only).  A rejected ABI raises inside the try block
before the record store is touched, so only an abi_error event is published;
on success the record is upserted, the account marked imported, and an
abi_update event published if anyone subscribes (whose extra decode can
itself fail, landing in the same catch after the record was already
written). -/
def save_contract_abi (env : Env) (subs : Subs) (st : Receiver)
    (account : Name) (data : List Nat) : Receiver × List Event :=
  let st :=
    if st.contract_abi_imported.contains account then
      { st with contract_abi_imported := [] }
    else st
  if env.validAbi account data = false then
    (st, [Event.abiError st.head account "invalid abi"])
  else
    let st := { st with
      contract_abi_imported := account :: st.contract_abi_imported
      db := { st.db with cur := { st.db.cur with abis := upsertAbi account data st.db.cur.abis } } }
    if subs.abi_updates then
      if env.abiDecodes data then
        (st, [Event.abiUpdate st.head account data])
      else
        (st, [Event.abiError st.head account "abi decode error"])
    else (st, [])

/-- receiver_plugin_impl::clear_contract_abi (lines 630-645). -/
def clear_contract_abi (st : Receiver) (account : Name) : Receiver × List Event :=
  let st :=
    if st.contract_abi_imported.contains account then
      { st with contract_abi_imported := [] }
    else st
  if (st.db.cur.abis.find? (fun e => e.account = account)).isSome then
    ({ st with db := { st.db with cur := { st.db.cur with abis := removeAbi account st.db.cur.abis } } },
     [Event.abiRemoval st.head account])
  else (st, [])

/-- receiver_plugin_impl::get_contract_abi_ready (lines 701-713): true if the
account is already in the decode context, else loads a stored record into the
context if one exists. -/
def get_contract_abi_ready (st : Receiver) (account : Name) : Receiver × Bool :=
  if st.contract_abi_imported.contains account then (st, true)
  else if (st.db.cur.abis.find? (fun e => e.account = account)).isSome then
    ({ st with contract_abi_imported := account :: st.contract_abi_imported }, true)
  else (st, false)

/-- receiver_plugin_impl::receive_block (lines 517-541): capture the block
timestamp and publish the block event (reporting branches only log). -/
def receive_block (st : Receiver) (timestamp : Nat) : Receiver × List Event :=
  ({ st with block_timestamp := timestamp },
   [Event.blockEv st.head st.irreversible])

/-- The "account" table branch of receiver_plugin_impl::receive_deltas
(lines 573-588): rows flagged present are decoded as account_object; an empty
abi clears the stored record, a non-empty one saves it. -/
def process_account_rows (env : Env) (subs : Subs) (st : Receiver) :
    List DeltaRow → Except String (Receiver × List Event)
  | [] => .ok (st, [])
  | r :: rest =>
    if r.present then
      match r.data with
      | .accountRow acc =>
        let res :=
          if acc.abi = [] then clear_contract_abi st acc.name
          else save_contract_abi env subs st acc.name acc.abi
        match process_account_rows env subs res.1 rest with
        | .error e => .error e
        | .ok (st2, evs2) => .ok (st2, res.2 ++ evs2)
      | _ => .error "account row conversion error"
    else process_account_rows env subs st rest

/-- The "contract_row" table branch of receiver_plugin_impl::receive_deltas
(lines 590-613): each row is decoded as key_value_object and published as a
table_row_update if the contract's ABI is available, else as an abi_error. -/
def process_contract_rows (st : Receiver) :
    List DeltaRow → Except String (Receiver × List Event)
  | [] => .ok (st, [])
  | r :: rest =>
    match r.data with
    | .kvRow kvo =>
      let res := get_contract_abi_ready st kvo.code
      let ev :=
        if res.2 then Event.tableRowUpdate res.1.head kvo.code r.present
        else Event.abiError res.1.head kvo.code "cannot decode table delta because of missing ABI"
      match process_contract_rows res.1 rest with
      | .error e => .error e
      | .ok (st2, evs2) => .ok (st2, ev :: evs2)
    | _ => .error "cannot read table row object"

/-- receiver_plugin_impl::receive_deltas (lines 545-617) over the decoded
delta list: table-name dispatch, then the block_table_delta event for every
delta. -/
def receive_deltas (env : Env) (subs : Subs) (st : Receiver) :
    List TableDelta → Except String (Receiver × List Event)
  | [] => .ok (st, [])
  | d :: rest =>
    let inner : Except String (Receiver × List Event) :=
      if d.name = "account" then process_account_rows env subs st d.rows
      else if d.name = "contract_row" && (subs.table_row_updates || subs.abi_errors) then
        process_contract_rows st d.rows
      else .ok (st, [])
    match inner with
    | .error e => .error e
    | .ok (st1, evs) =>
      match receive_deltas env subs st1 rest with
      | .error e => .error e
      | .ok (st2, evs2) => .ok (st2, evs ++ [Event.blockTableDelta d.name] ++ evs2)

/-- Sorted-unique insertion into the received-block ring (the by_blocknum
ordered_unique index; a duplicate key, unreachable in the receiver because
forked ring entries are removed by undo before re-insertion, keeps the
existing entry). -/
def insertRecBlock (e : ReceivedBlock) : List ReceivedBlock → List ReceivedBlock
  | [] => [e]
  | x :: xs =>
    if e.block_index < x.block_index then e :: x :: xs
    else if e.block_index = x.block_index then x :: xs
    else x :: insertRecBlock e xs

/-- The fork rollback loop (lines 448-450), with fuel: the source repeats
`db->undo()` while `db->revision() >= block_num`.  One unit of fuel is spent
per undo; `rollbackTo` supplies the stack length as fuel, which is exact
because each undo pops one scope (with the stack empty the source's loop
would never terminate; that situation is unreachable and excluded by every
theorem's hypotheses). -/
def rollbackFuel (block_num : Nat) : Nat → Db → Db
  | 0, d => d
  | fuel + 1, d =>
    if block_num ≤ d.rev then
      match d.stack with
      | [] => d
      | (r, before) :: rest =>
        rollbackFuel block_num fuel { d with rev := r - 1, cur := before, stack := rest }
    else d

/-- Repeatedly undo the store until its revision is below `block_num`. -/
def rollbackTo (block_num : Nat) (d : Db) : Db :=
  rollbackFuel block_num d.stack.length d

/-- Lines 503-507 of receive_result: the commit cursor — the new
irreversible number, clamped down to the exporter's acknowledged block when
acknowledgements are enabled and lagging. -/
def commit_rev_of (st : Receiver) : Nat :=
  if st.exporter_will_ack && decide (st.exporter_acked_block < st.irreversible)
  then st.exporter_acked_block else st.irreversible

/-- receiver_plugin_impl::save_state (lines 290-309): modify the state
singleton, or create it on first use. -/
def save_state (st : Receiver) : Receiver :=
  { st with db := { st.db with cur := { st.db.cur with
      state := some ⟨st.head, st.head_id, st.irreversible, st.irreversible_id⟩ } } }

/-- Lines 437-466 of receive_result: raise the store revision to the frame's
block number, then adjudicate the block position — roll back on a fork below
the head (failing hard when the rollback bottoms out), or demand a
continuation of the head block otherwise. -/
def fork_step (st : Receiver) (result : GetBlocksResult) (block_num : Nat) :
    Except String (Receiver × List Event) :=
  let db0 := if st.db.rev < block_num then st.db.setRevision block_num else st.db
  if result.last_irreversible.block_num < block_num then
    if block_num ≤ st.head then
      let db1 := rollbackTo block_num db0
      if db1.rev = 0 then .error "Cannot rollback, no undo stack"
      else
        .ok ({ st with contract_abi_imported := [], db := db1 },
             [Event.fork block_num (st.head - block_num) ForkReason.network])
    else
      let prevMismatch : Bool :=
        match result.prev_block with
        | none => true
        | some pb => pb.block_id != st.head_id
      if decide (0 < st.head) && prevMismatch then .error "prev_block does not match"
      else .ok ({ st with db := db0 }, [])
  else .ok ({ st with db := db0 }, [])

/-- Lines 470-483 of receive_result: when the block is above the current
irreversible number, insert it into the received-block ring and prune ring
entries below the (pre-frame) irreversible number from the front. -/
def ring_step (st : Receiver) (block_num : Nat) (block_id : Checksum256) : Receiver :=
  if st.irreversible < block_num then
    let ring1 := insertRecBlock ⟨block_num, block_id⟩ st.db.cur.recblocks
    let ring2 := ring1.dropWhile (fun e => e.block_index < st.irreversible)
    { st with db := { st.db with cur := { st.db.cur with recblocks := ring2 } } }
  else st

/-- Lines 490-495 of receive_result: run the block, delta and trace paths on
the frame's payloads, in that order. -/
def payload_step (env : Env) (subs : Subs) (st : Receiver) (result : GetBlocksResult) :
    Except String (Receiver × List Event) :=
  let bp : Receiver × List Event :=
    match result.block with
    | some ts => receive_block st ts
    | none => (st, [])
  match (match result.deltas with
         | some ds => receive_deltas env subs bp.1 ds
         | none => .ok (bp.1, [])) with
  | .error e => .error e
  | .ok (st5, ev3) =>
    let ev4 :=
      match result.traces with
      | some trs => receive_traces st5.blacklist_actions subs.transaction_traces st5.head trs
      | none => []
    .ok (st5, bp.2 ++ ev3 ++ ev4)

/-- receiver_plugin_impl::receive_result (lines 419-511) on a decoded frame.
Returns the updated receiver, the events published for the frame in order,
and the bool the source returns to the read loop (false stops it); a thrown
runtime_error is an `Except.error`.  Frames without this_block are ignored.
After position adjudication, the frame's mutations happen inside an undo
scope (opened by snapshotting the store data): the ring update, the receiver
state fields, the payload effects, then save_state, the scope push, and the
ack-clamped commit — unless `aborting` is set, in which case the unpushed
scope is dropped (the session destructor reverts the data) and the loop
stops. -/
def receive_result (env : Env) (subs : Subs) (st : Receiver) (result : GetBlocksResult) :
    Except String (Receiver × List Event × Bool) :=
  match result.this_block with
  | none => .ok (st, [], true)
  | some tb =>
    match fork_step st result tb.block_num with
    | .error e => .error e
    | .ok (st1, ev1) =>
      let snapshot := st1.db.cur
      let st2 := ring_step st1 tb.block_num tb.block_id
      let st3 := { st2 with
        head := tb.block_num
        head_id := tb.block_id
        irreversible := result.last_irreversible.block_num
        irreversible_id := result.last_irreversible.block_id }
      match payload_step env subs st3 result with
      | .error e => .error e
      | .ok (st5, evP) =>
        if st5.aborting then
          .ok ({ st5 with db := { st5.db with cur := snapshot } }, ev1 ++ evP, false)
        else
          let st6 := save_state st5
          .ok ({ st6 with db := (st6.db.pushScope snapshot).commit (commit_rev_of st6) },
               ev1 ++ evP, true)

/-- The read loop around receive_result (continue_read): process frames in
sequence, stopping when receive_result returns false. -/
def run_frames (env : Env) (subs : Subs) (st : Receiver) :
    List GetBlocksResult → Except String Receiver
  | [] => .ok st
  | f :: rest =>
    match receive_result env subs st f with
    | .error e => .error e
    | .ok (st1, _, cont) => if cont then run_frames env subs st1 rest else .ok st1

/-- An abieos environment that accepts every ABI. -/
def env0 : Env := ⟨fun _ _ => true, fun _ => true⟩

/-- All channels subscribed. -/
def subs0 : Subs := ⟨true, true, true, true⟩

/-- The receiver as it starts on a fresh database: zeroed state, empty store,
default blacklist. -/
def init_receiver : Receiver :=
  { db := ⟨0, ⟨none, [], []⟩, [], []⟩
    head := 0
    head_id := 0
    irreversible := 0
    irreversible_id := 0
    aborting := false
    exporter_will_ack := false
    exporter_acked_block := 0
    contract_abi_imported := []
    blacklist_actions := default_blacklist
    block_timestamp := 0 }

/-- A payload-free frame for block `n` (block id `n`, previous id `n - 1`)
with last irreversible block `lib` (id `lib`). -/
def mkFrame (n lib : Nat) : GetBlocksResult :=
  { head := ⟨n, n⟩
    last_irreversible := ⟨lib, lib⟩
    this_block := some ⟨n, n⟩
    prev_block := some ⟨n - 1, n - 1⟩
    block := none
    traces := none
    deltas := none }

/-- A clean advance: blocks 100 to 106 with the last-irreversible number
trailing five behind. -/
def c3_frames : List GetBlocksResult :=
  [mkFrame 100 95, mkFrame 101 96, mkFrame 102 97, mkFrame 103 98,
   mkFrame 104 99, mkFrame 105 100, mkFrame 106 101]

/-- A reachable state after a clean advance to head 105, irreversible 100,
with ring entries 100..105. -/
def c3_start : Receiver :=
  match run_frames env0 subs0 init_receiver
    [mkFrame 100 95, mkFrame 101 96, mkFrame 102 97, mkFrame 103 98,
     mkFrame 104 99, mkFrame 105 100] with
  | .ok s => s
  | .error _ => init_receiver

/-- A reachable pre-fork state: blocks 10, 11, 12 processed from scratch. -/
def c4_start : Receiver :=
  match run_frames env0 subs0 init_receiver [mkFrame 10 8, mkFrame 11 9, mkFrame 12 9] with
  | .ok s => s
  | .error _ => init_receiver

/-- Block 11 arriving again on a new branch (id 1111) while the head is 12. -/
def c4_frame : GetBlocksResult :=
  ⟨⟨11, 1111⟩, ⟨9, 9⟩, some ⟨11, 1111⟩, some ⟨10, 10⟩, none, none, none⟩

/-- Whether an event is a fork_event. -/
def Event.isFork : Event → Bool
  | .fork _ _ _ => true
  | _ => false

/-- State component of a successful run_frames outcome (the initial receiver
for an error, which the theorems below never hit). -/
def runState (r : Except String Receiver) : Receiver :=
  match r with
  | .ok s => s
  | .error _ => init_receiver

/-- State component of a successful receive_result outcome (the initial
receiver for an error, which the theorems below never hit). -/
def okState (r : Except String (Receiver × List Event × Bool)) : Receiver :=
  match r with
  | .ok p => p.1
  | .error _ => init_receiver

/-- Event component of a successful receive_result outcome. -/
def okEvents (r : Except String (Receiver × List Event × Bool)) : List Event :=
  match r with
  | .ok p => p.2.1
  | .error _ => []

/-- Closed form of the pause-duration sequence produced by check_pause under
a continuously pausing condition, starting from `pause_time_msec = 0`. -/
def pseq : Nat → Nat
  | 0 => 0
  | n + 1 =>
    let p := pseq n
    if p = 0 then 100 else if p < 8000 then p * 2 % 2 ^ 32 else p

/-- Descending run of `n` consecutive revisions starting at `r`: the shape of
the undo-stack revisions in every state the receiver actually reaches (each
frame pushes the next revision). -/
def consecFrom (r : Nat) : Nat → List Nat
  | 0 => []
  | n + 1 => r :: consecFrom (r - 1) n

/-- The received-block ring is ordered ascending by block_index (what the
by_blocknum ordered index maintains by construction). -/
abbrev ringSorted (l : List ReceivedBlock) : Prop :=
  List.Pairwise (fun a b => a.block_index ≤ b.block_index) l

/-- Fields of the receiver that the payload paths (block, deltas, traces)
never modify: those paths only touch the ABI records, the imported set and
the block timestamp. -/
def framePreserves (a b : Receiver) : Prop :=
  b.db.rev = a.db.rev ∧ b.db.stack = a.db.stack ∧ b.db.commits = a.db.commits ∧
  b.db.cur.recblocks = a.db.cur.recblocks ∧ b.db.cur.state = a.db.cur.state ∧
  b.head = a.head ∧ b.head_id = a.head_id ∧ b.irreversible = a.irreversible ∧
  b.irreversible_id = a.irreversible_id ∧ b.aborting = a.aborting ∧
  b.exporter_will_ack = a.exporter_will_ack ∧
  b.exporter_acked_block = a.exporter_acked_block ∧
  b.blacklist_actions = a.blacklist_actions

/-! Preservation lemmas: the payload paths never touch the undo machinery,
the ring, the state singleton, the head and irreversible fields, or the
exporter bookkeeping. -/

theorem framePreserves_refl (a : Receiver) : framePreserves a a :=
  ⟨rfl, rfl, rfl, rfl, rfl, rfl, rfl, rfl, rfl, rfl, rfl, rfl, rfl⟩

theorem framePreserves_trans {a b c : Receiver}
    (h1 : framePreserves a b) (h2 : framePreserves b c) : framePreserves a c :=
  ⟨h2.1.trans h1.1, h2.2.1.trans h1.2.1, h2.2.2.1.trans h1.2.2.1,
   h2.2.2.2.1.trans h1.2.2.2.1, h2.2.2.2.2.1.trans h1.2.2.2.2.1,
   h2.2.2.2.2.2.1.trans h1.2.2.2.2.2.1, h2.2.2.2.2.2.2.1.trans h1.2.2.2.2.2.2.1,
   h2.2.2.2.2.2.2.2.1.trans h1.2.2.2.2.2.2.2.1,
   h2.2.2.2.2.2.2.2.2.1.trans h1.2.2.2.2.2.2.2.2.1,
   h2.2.2.2.2.2.2.2.2.2.1.trans h1.2.2.2.2.2.2.2.2.2.1,
   h2.2.2.2.2.2.2.2.2.2.2.1.trans h1.2.2.2.2.2.2.2.2.2.2.1,
   h2.2.2.2.2.2.2.2.2.2.2.2.1.trans h1.2.2.2.2.2.2.2.2.2.2.2.1,
   h2.2.2.2.2.2.2.2.2.2.2.2.2.trans h1.2.2.2.2.2.2.2.2.2.2.2.2⟩

theorem save_contract_abi_preserves (env : Env) (subs : Subs) (st : Receiver)
    (a : Name) (d : List Nat) :
    framePreserves st (save_contract_abi env subs st a d).1 := by
  unfold save_contract_abi framePreserves
  split_ifs <;> simp

theorem clear_contract_abi_preserves (st : Receiver) (a : Name) :
    framePreserves st (clear_contract_abi st a).1 := by
  unfold clear_contract_abi framePreserves
  cases hc : st.contract_abi_imported.contains a <;>
    cases hf : (st.db.cur.abis.find? (fun e => e.account = a)).isSome <;>
      simp [hc, hf]

theorem get_contract_abi_ready_preserves (st : Receiver) (a : Name) :
    framePreserves st (get_contract_abi_ready st a).1 := by
  unfold get_contract_abi_ready framePreserves
  cases hc : st.contract_abi_imported.contains a <;>
    cases hf : (st.db.cur.abis.find? (fun e => e.account = a)).isSome <;>
      simp [hc, hf]

theorem process_account_rows_preserves (env : Env) (subs : Subs) :
    ∀ (rows : List DeltaRow) (st st2 : Receiver) (evs : List Event),
      process_account_rows env subs st rows = .ok (st2, evs) → framePreserves st st2 := by
  intro rows
  induction rows with
  | nil =>
    intro st st2 evs h
    simp only [process_account_rows] at h
    cases h
    exact framePreserves_refl st
  | cons r rest ih =>
    intro st st2 evs h
    simp only [process_account_rows] at h
    by_cases hp : r.present
    · simp only [hp, if_true] at h
      cases hd : r.data with
      | accountRow acc =>
        rw [hd] at h
        dsimp only at h
        set res := if acc.abi = [] then clear_contract_abi st acc.name
                   else save_contract_abi env subs st acc.name acc.abi with hres
        have hpres : framePreserves st res.1 := by
          rw [hres]
          split_ifs
          · exact clear_contract_abi_preserves st acc.name
          · exact save_contract_abi_preserves env subs st acc.name acc.abi
        cases hrec : process_account_rows env subs res.1 rest with
        | error e => rw [hrec] at h; cases h
        | ok p =>
          rw [hrec] at h
          cases h
          exact framePreserves_trans hpres (ih res.1 p.1 p.2 (by rw [hrec]))
      | kvRow kvo => rw [hd] at h; cases h
      | otherRow => rw [hd] at h; cases h
    · simp only [hp, if_false] at h
      exact ih st st2 evs h

theorem process_contract_rows_preserves :
    ∀ (rows : List DeltaRow) (st st2 : Receiver) (evs : List Event),
      process_contract_rows st rows = .ok (st2, evs) → framePreserves st st2 := by
  intro rows
  induction rows with
  | nil =>
    intro st st2 evs h
    simp only [process_contract_rows] at h
    cases h
    exact framePreserves_refl st
  | cons r rest ih =>
    intro st st2 evs h
    simp only [process_contract_rows] at h
    cases hd : r.data with
    | kvRow kvo =>
      rw [hd] at h
      dsimp only at h
      cases hrec : process_contract_rows (get_contract_abi_ready st kvo.code).1 rest with
      | error e => rw [hrec] at h; cases h
      | ok p =>
        rw [hrec] at h
        cases h
        exact framePreserves_trans (get_contract_abi_ready_preserves st kvo.code)
          (ih _ p.1 p.2 (by rw [hrec]))
    | accountRow acc => rw [hd] at h; cases h
    | otherRow => rw [hd] at h; cases h

theorem receive_deltas_preserves (env : Env) (subs : Subs) :
    ∀ (ds : List TableDelta) (st st2 : Receiver) (evs : List Event),
      receive_deltas env subs st ds = .ok (st2, evs) → framePreserves st st2 := by
  intro ds
  induction ds with
  | nil =>
    intro st st2 evs h
    simp only [receive_deltas] at h
    cases h
    exact framePreserves_refl st
  | cons d rest ih =>
    intro st st2 evs h
    simp only [receive_deltas] at h
    set inner := if d.name = "account" then process_account_rows env subs st d.rows
      else if d.name = "contract_row" && (subs.table_row_updates || subs.abi_errors) then
        process_contract_rows st d.rows
      else .ok (st, []) with hinner
    cases hi : inner with
    | error e => rw [hi] at h; cases h
    | ok p =>
      obtain ⟨stp, evp⟩ := p
      rw [hi] at h
      dsimp only at h
      have hpres : framePreserves st stp := by
        rw [hinner] at hi
        split_ifs at hi
        · exact process_account_rows_preserves env subs d.rows st stp evp hi
        · exact process_contract_rows_preserves d.rows st stp evp hi
        · cases hi; exact framePreserves_refl st
      cases hrec : receive_deltas env subs stp rest with
      | error e => rw [hrec] at h; cases h
      | ok q =>
        obtain ⟨q1, q2⟩ := q
        rw [hrec] at h
        dsimp only at h
        cases h
        exact framePreserves_trans hpres (ih stp _ _ hrec)

theorem receive_block_preserves (st : Receiver) (ts : Nat) :
    framePreserves st (receive_block st ts).1 := by
  unfold receive_block framePreserves
  simp

theorem payload_step_preserves (env : Env) (subs : Subs) (st st2 : Receiver)
    (result : GetBlocksResult) (evs : List Event)
    (h : payload_step env subs st result = .ok (st2, evs)) : framePreserves st st2 := by
  unfold payload_step at h
  dsimp only at h
  have hpres1 : framePreserves st (match result.block with
      | some ts => receive_block st ts
      | none => (st, [])).1 := by
    cases result.block with
    | none => exact framePreserves_refl st
    | some ts => exact receive_block_preserves st ts
  generalize hg : (match result.block with
      | some ts => receive_block st ts
      | none => (st, [])) = bp at h hpres1
  cases hd : (match result.deltas with
              | some ds => receive_deltas env subs bp.1 ds
              | none => Except.ok (bp.1, [])) with
  | error e => rw [hd] at h; cases h
  | ok p =>
    obtain ⟨stp, evp⟩ := p
    rw [hd] at h
    dsimp only at h
    have hpres2 : framePreserves bp.1 stp := by
      cases hds : result.deltas with
      | none => rw [hds] at hd; cases hd; exact framePreserves_refl _
      | some ds =>
        rw [hds] at hd
        exact receive_deltas_preserves env subs ds bp.1 stp evp hd
    cases h
    exact framePreserves_trans hpres1 hpres2

/-! Rollback and stage lemmas. -/

theorem rollbackFuel_commits (b : Nat) :
    ∀ (fuel : Nat) (d : Db), (rollbackFuel b fuel d).commits = d.commits := by
  intro fuel
  induction fuel with
  | zero => intro d; rfl
  | succ fuel ih =>
    intro d
    unfold rollbackFuel
    split_ifs with hge
    · cases hs : d.stack with
      | nil => rfl
      | cons e rest => exact ih _
    · rfl

theorem rollbackFuel_cur_provenance (b : Nat) :
    ∀ (fuel : Nat) (d : Db), (rollbackFuel b fuel d).cur = d.cur ∨
      ∃ p ∈ d.stack, (rollbackFuel b fuel d).cur = p.2 := by
  intro fuel
  induction fuel with
  | zero => intro d; exact .inl rfl
  | succ fuel ih =>
    intro d
    unfold rollbackFuel
    split_ifs with hge
    · cases hs : d.stack with
      | nil => exact .inl rfl
      | cons e rest =>
        rcases ih { d with rev := e.1 - 1, cur := e.2, stack := rest } with h | ⟨p, hp, hcur⟩
        · exact .inr ⟨e, List.mem_cons_self e rest, h⟩
        · exact .inr ⟨p, List.mem_cons_of_mem e hp, hcur⟩
    · exact .inl rfl

theorem rollbackFuel_rev (b : Nat) (hb : 1 ≤ b) :
    ∀ (fuel : Nat) (d : Db),
      d.stack.map Prod.fst = consecFrom d.rev d.stack.length →
      b ≤ d.rev → d.rev + 1 ≤ b + d.stack.length → d.stack.length ≤ fuel →
      (rollbackFuel b fuel d).rev = b - 1 := by
  intro fuel
  induction fuel with
  | zero =>
    intro d hcons hge hdepth hlen
    omega
  | succ fuel ih =>
    intro d hcons hge hdepth hlen
    unfold rollbackFuel
    rw [if_pos hge]
    cases hs : d.stack with
    | nil =>
      rw [hs] at hdepth
      simp at hdepth
      omega
    | cons e rest =>
      rw [hs] at hcons hdepth hlen
      simp only [List.map_cons, List.length_cons, consecFrom] at hcons hdepth hlen
      have he : e.1 = d.rev := (List.cons.injEq _ _ _ _).mp hcons |>.1
      have hrest : rest.map Prod.fst = consecFrom (d.rev - 1) rest.length :=
        (List.cons.injEq _ _ _ _).mp hcons |>.2
      by_cases hcase : b ≤ d.rev - 1
      · have hstep := ih { d with rev := e.1 - 1, cur := e.2, stack := rest }
          (by show rest.map Prod.fst = consecFrom (e.1 - 1) rest.length; rw [he]; exact hrest)
          (by show b ≤ e.1 - 1; omega)
          (by show e.1 - 1 + 1 ≤ b + rest.length; omega)
          (by show rest.length ≤ fuel; omega)
        exact hstep
      · have hrevb : d.rev = b := by omega
        have hdone : ∀ f (d2 : Db), ¬ b ≤ d2.rev → rollbackFuel b f d2 = d2 := by
          intro f d2 hn
          cases f with
          | zero => rfl
          | succ f => unfold rollbackFuel; rw [if_neg hn]
        show (rollbackFuel b fuel { d with rev := e.1 - 1, cur := e.2, stack := rest }).rev = b - 1
        rw [hdone fuel _ (by show ¬ b ≤ e.1 - 1; omega)]
        show e.1 - 1 = b - 1
        omega

theorem rollbackTo_rev (b : Nat) (d : Db) (hb : 1 ≤ b)
    (hcons : d.stack.map Prod.fst = consecFrom d.rev d.stack.length)
    (hge : b ≤ d.rev) (hdepth : d.rev + 1 ≤ b + d.stack.length) :
    (rollbackTo b d).rev = b - 1 :=
  rollbackFuel_rev b hb d.stack.length d hcons hge hdepth (Nat.le_refl _)

/-- Fields of the receiver that fork_step never modifies when it succeeds
(it only touches the store's undo machinery and the imported set). -/
theorem fork_step_ok_fields (st : Receiver) (result : GetBlocksResult) (b : Nat)
    (st1 : Receiver) (ev1 : List Event)
    (hok : fork_step st result b = .ok (st1, ev1)) :
    st1.head = st.head ∧ st1.head_id = st.head_id ∧
    st1.irreversible = st.irreversible ∧ st1.irreversible_id = st.irreversible_id ∧
    st1.aborting = st.aborting ∧ st1.exporter_will_ack = st.exporter_will_ack ∧
    st1.exporter_acked_block = st.exporter_acked_block ∧
    st1.blacklist_actions = st.blacklist_actions ∧
    st1.db.commits = st.db.commits ∧ st1.block_timestamp = st.block_timestamp := by
  unfold fork_step at hok
  dsimp only at hok
  split_ifs at hok <;> cases hok <;>
    exact ⟨rfl, rfl, rfl, rfl, rfl, rfl, rfl, rfl,
      by simp [rollbackTo, rollbackFuel_commits, Db.setRevision], rfl⟩

/-- Under the receiver's reachable-state invariants, a successful fork_step
leaves the store revision at b - 1: either set_revision positioned it there
(new head block), or the fork rollback undid scopes down to it. -/
theorem fork_step_ok_rev (st : Receiver) (result : GetBlocksResult) (b : Nat)
    (st1 : Receiver) (ev1 : List Event)
    (hok : fork_step st result b = .ok (st1, ev1))
    (hrev : st.db.rev = st.head)
    (hcons : st.db.stack.map Prod.fst = consecFrom st.db.rev st.db.stack.length)
    (hdepth : b ≤ st.head → st.db.rev + 1 ≤ b + st.db.stack.length)
    (hforkonly : b ≤ st.head → result.last_irreversible.block_num < b) :
    st1.db.rev = b - 1 ∧ 1 ≤ b := by
  unfold fork_step at hok
  dsimp only at hok
  by_cases hlib : result.last_irreversible.block_num < b
  · rw [if_pos hlib] at hok
    have hb : 1 ≤ b := by omega
    by_cases hle : b ≤ st.head
    · rw [if_pos hle] at hok
      have hnlt : ¬ st.db.rev < b := by omega
      rw [if_neg hnlt] at hok
      have hroll : (rollbackTo b st.db).rev = b - 1 :=
        rollbackTo_rev b st.db hb hcons (by omega) (hdepth hle)
      split_ifs at hok <;> cases hok <;> exact ⟨hroll, hb⟩
    · rw [if_neg hle] at hok
      have hlt : st.db.rev < b := by omega
      rw [if_pos hlt] at hok
      split_ifs at hok <;> cases hok <;> exact ⟨rfl, hb⟩
  · rw [if_neg hlib] at hok
    have hnle : ¬ b ≤ st.head := fun hle => hlib (hforkonly hle)
    have hlt : st.db.rev < b := by omega
    rw [if_pos hlt] at hok
    cases hok
    constructor
    · rfl
    · omega

/-- ring_step only rewrites the received-block ring inside the current store
data; everything else is unchanged. -/
theorem ring_step_fields (st : Receiver) (b : Nat) (bid : Checksum256) :
    (ring_step st b bid).db.rev = st.db.rev ∧ (ring_step st b bid).db.stack = st.db.stack ∧
    (ring_step st b bid).db.commits = st.db.commits ∧
    (ring_step st b bid).db.cur.state = st.db.cur.state ∧
    (ring_step st b bid).db.cur.abis = st.db.cur.abis ∧
    (ring_step st b bid).head = st.head ∧ (ring_step st b bid).irreversible = st.irreversible ∧
    (ring_step st b bid).aborting = st.aborting ∧
    (ring_step st b bid).exporter_will_ack = st.exporter_will_ack ∧
    (ring_step st b bid).exporter_acked_block = st.exporter_acked_block := by
  unfold ring_step
  split_ifs <;> simp

/-! No path below the fork adjudication publishes a fork event. -/

theorem receive_traces_events_not_fork (bl : List (Name × List Name)) (sub : Bool)
    (head : Nat) (trs : List TransactionTrace) :
    ∀ e ∈ receive_traces bl sub head trs, e.isFork = false := by
  intro e he
  unfold receive_traces at he
  split_ifs at he
  · rw [List.mem_filterMap] at he
    obtain ⟨a, _, hfa⟩ := he
    split_ifs at hfa <;> cases hfa <;> rfl
  · cases he

theorem save_contract_abi_events_not_fork (env : Env) (subs : Subs) (st : Receiver)
    (a : Name) (d : List Nat) :
    ∀ e ∈ (save_contract_abi env subs st a d).2, e.isFork = false := by
  intro e he
  unfold save_contract_abi at he
  by_cases hc : a ∈ st.contract_abi_imported <;>
    cases hv : env.validAbi a d <;>
      cases hu : subs.abi_updates <;>
        cases hd2 : env.abiDecodes d <;>
          simp [hc, hv, hu, hd2] at he <;> subst he <;> rfl

theorem clear_contract_abi_events_not_fork (st : Receiver) (a : Name) :
    ∀ e ∈ (clear_contract_abi st a).2, e.isFork = false := by
  intro e he
  unfold clear_contract_abi at he
  by_cases hc : a ∈ st.contract_abi_imported <;>
    by_cases hf2 : ∃ x ∈ st.db.cur.abis, x.account = a <;>
      simp [hc, hf2] at he <;> subst he <;> rfl

theorem process_account_rows_events_not_fork (env : Env) (subs : Subs) :
    ∀ (rows : List DeltaRow) (st st2 : Receiver) (evs : List Event),
      process_account_rows env subs st rows = .ok (st2, evs) →
      ∀ e ∈ evs, e.isFork = false := by
  intro rows
  induction rows with
  | nil =>
    intro st st2 evs h e he
    simp only [process_account_rows] at h
    cases h
    cases he
  | cons r rest ih =>
    intro st st2 evs h e he
    simp only [process_account_rows] at h
    by_cases hp : r.present
    · simp only [hp, if_true] at h
      cases hd : r.data with
      | accountRow acc =>
        rw [hd] at h
        dsimp only at h
        set res := if acc.abi = [] then clear_contract_abi st acc.name
                   else save_contract_abi env subs st acc.name acc.abi with hres
        have hfst : ∀ x ∈ res.2, Event.isFork x = false := by
          rw [hres]
          split_ifs
          · exact clear_contract_abi_events_not_fork st acc.name
          · exact save_contract_abi_events_not_fork env subs st acc.name acc.abi
        cases hrec : process_account_rows env subs res.1 rest with
        | error er => rw [hrec] at h; cases h
        | ok p =>
          obtain ⟨p1, p2⟩ := p
          rw [hrec] at h
          dsimp only at h
          cases h
          rcases List.mem_append.mp he with h1 | h2
          · exact hfst e h1
          · exact ih res.1 _ _ hrec e h2
      | kvRow kvo => rw [hd] at h; cases h
      | otherRow => rw [hd] at h; cases h
    · simp only [hp, if_false] at h
      exact ih st st2 evs h e he

theorem process_contract_rows_events_not_fork :
    ∀ (rows : List DeltaRow) (st st2 : Receiver) (evs : List Event),
      process_contract_rows st rows = .ok (st2, evs) →
      ∀ e ∈ evs, e.isFork = false := by
  intro rows
  induction rows with
  | nil =>
    intro st st2 evs h e he
    simp only [process_contract_rows] at h
    cases h
    cases he
  | cons r rest ih =>
    intro st st2 evs h e he
    simp only [process_contract_rows] at h
    cases hd : r.data with
    | kvRow kvo =>
      rw [hd] at h
      dsimp only at h
      cases hrec : process_contract_rows (get_contract_abi_ready st kvo.code).1 rest with
      | error er => rw [hrec] at h; cases h
      | ok p =>
        obtain ⟨p1, p2⟩ := p
        rw [hrec] at h
        dsimp only at h
        cases h
        rcases List.mem_cons.mp he with h1 | h2
        · rw [h1]
          split_ifs <;> rfl
        · exact ih _ _ _ hrec e h2
    | accountRow acc => rw [hd] at h; cases h
    | otherRow => rw [hd] at h; cases h

theorem receive_deltas_events_not_fork (env : Env) (subs : Subs) :
    ∀ (ds : List TableDelta) (st st2 : Receiver) (evs : List Event),
      receive_deltas env subs st ds = .ok (st2, evs) →
      ∀ e ∈ evs, e.isFork = false := by
  intro ds
  induction ds with
  | nil =>
    intro st st2 evs h e he
    simp only [receive_deltas] at h
    cases h
    cases he
  | cons d rest ih =>
    intro st st2 evs h e he
    simp only [receive_deltas] at h
    set inner := if d.name = "account" then process_account_rows env subs st d.rows
      else if d.name = "contract_row" && (subs.table_row_updates || subs.abi_errors) then
        process_contract_rows st d.rows
      else .ok (st, []) with hinner
    cases hi : inner with
    | error er => rw [hi] at h; cases h
    | ok p =>
      obtain ⟨stp, evp⟩ := p
      rw [hi] at h
      dsimp only at h
      have hfst : ∀ x ∈ evp, Event.isFork x = false := by
        rw [hinner] at hi
        split_ifs at hi
        · exact process_account_rows_events_not_fork env subs d.rows st stp evp hi
        · exact process_contract_rows_events_not_fork d.rows st stp evp hi
        · cases hi; intro x hx; cases hx
      cases hrec : receive_deltas env subs stp rest with
      | error er => rw [hrec] at h; cases h
      | ok q =>
        obtain ⟨q1, q2⟩ := q
        rw [hrec] at h
        dsimp only at h
        cases h
        rcases List.mem_append.mp he with h12 | h3
        · rcases List.mem_append.mp h12 with h1 | h2
          · exact hfst e h1
          · rcases List.mem_cons.mp h2 with h2a | h2b
            · rw [h2a]; rfl
            · cases h2b
        · exact ih stp _ _ hrec e h3

theorem payload_step_events_not_fork (env : Env) (subs : Subs) (st : Receiver)
    (result : GetBlocksResult) (st5 : Receiver) (evP : List Event)
    (h : payload_step env subs st result = .ok (st5, evP)) :
    ∀ e ∈ evP, e.isFork = false := by
  intro e he
  unfold payload_step at h
  dsimp only at h
  have hbp : ∀ x ∈ (match result.block with
      | some ts => receive_block st ts
      | none => ((st, []) : Receiver × List Event)).2, Event.isFork x = false := by
    cases result.block with
    | none => intro x hx; cases hx
    | some ts =>
      intro x hx
      rcases List.mem_singleton.mp hx with rfl
      rfl
  generalize hg : (match result.block with
      | some ts => receive_block st ts
      | none => ((st, []) : Receiver × List Event)) = bp at h hbp
  cases hd : (match result.deltas with
              | some ds => receive_deltas env subs bp.1 ds
              | none => Except.ok (bp.1, [])) with
  | error er => rw [hd] at h; cases h
  | ok p =>
    obtain ⟨stp, evp⟩ := p
    rw [hd] at h
    dsimp only at h
    have hmid : ∀ x ∈ evp, Event.isFork x = false := by
      cases hds : result.deltas with
      | none => rw [hds] at hd; cases hd; intro x hx; cases hx
      | some ds =>
        rw [hds] at hd
        exact receive_deltas_events_not_fork env subs ds bp.1 stp evp hd
    cases h
    rcases List.mem_append.mp he with h12 | h3
    · rcases List.mem_append.mp h12 with h1 | h2
      · exact hbp e h1
      · exact hmid e h2
    · cases htr : result.traces with
      | none => rw [htr] at h3; cases h3
      | some trs =>
        rw [htr] at h3
        exact receive_traces_events_not_fork _ _ _ _ e h3

/-- When the payload carries no deltas, the payload step leaves the imported
set untouched (the block and trace paths never touch it). -/
theorem payload_step_imported_of_no_deltas (env : Env) (subs : Subs) (st : Receiver)
    (result : GetBlocksResult) (st5 : Receiver) (evP : List Event)
    (h : payload_step env subs st result = .ok (st5, evP))
    (hnd : result.deltas = none) :
    st5.contract_abi_imported = st.contract_abi_imported := by
  unfold payload_step at h
  dsimp only at h
  rw [hnd] at h
  dsimp only at h
  cases h
  cases result.block <;> rfl

/-- The fork branch of fork_step, on success: the decode context is rebuilt
(imported set emptied), the store is the rollback result, and exactly the
fork event is produced. -/
theorem fork_step_fork_ok (st : Receiver) (result : GetBlocksResult) (b : Nat)
    (st1 : Receiver) (ev1 : List Event)
    (hok : fork_step st result b = .ok (st1, ev1))
    (hlib : result.last_irreversible.block_num < b)
    (hle : b ≤ st.head) (hnlt : ¬ st.db.rev < b) :
    st1 = { st with contract_abi_imported := [], db := rollbackTo b st.db } ∧
    ev1 = [Event.fork b (st.head - b) ForkReason.network] ∧
    ¬ (rollbackTo b st.db).rev = 0 := by
  unfold fork_step at hok
  dsimp only at hok
  rw [if_pos hlib, if_pos hle, if_neg hnlt] at hok
  split_ifs at hok with h0 <;> cases hok <;> exact ⟨rfl, rfl, h0⟩

/-- Successful receive_result runs decompose into the fork step, the ring
and state update, the payload step, and either the abort path (scope dropped)
or the push-and-commit path. -/
theorem receive_result_ok_decomp (env : Env) (subs : Subs) (st : Receiver)
    (result : GetBlocksResult) (tb : BlockPosition) (st' : Receiver)
    (evs : List Event) (cont : Bool)
    (htb : result.this_block = some tb)
    (h : receive_result env subs st result = .ok (st', evs, cont)) :
    ∃ st1 ev1 st5 evP,
      fork_step st result tb.block_num = .ok (st1, ev1) ∧
      payload_step env subs
        { ring_step st1 tb.block_num tb.block_id with
          head := tb.block_num
          head_id := tb.block_id
          irreversible := result.last_irreversible.block_num
          irreversible_id := result.last_irreversible.block_id } result = .ok (st5, evP) ∧
      evs = ev1 ++ evP ∧
      ((st5.aborting = true ∧ cont = false ∧
          st' = { st5 with db := { st5.db with cur := st1.db.cur } }) ∨
       (st5.aborting = false ∧ cont = true ∧
          st' = { save_state st5 with
                  db := ((save_state st5).db.pushScope st1.db.cur).commit
                          (commit_rev_of (save_state st5)) })) := by
  unfold receive_result at h
  rw [htb] at h
  dsimp only at h
  cases hf : fork_step st result tb.block_num with
  | error e => rw [hf] at h; cases h
  | ok p =>
    obtain ⟨st1, ev1⟩ := p
    rw [hf] at h
    dsimp only at h
    cases hp : payload_step env subs
        { ring_step st1 tb.block_num tb.block_id with
          head := tb.block_num
          head_id := tb.block_id
          irreversible := result.last_irreversible.block_num
          irreversible_id := result.last_irreversible.block_id } result with
    | error e => rw [hp] at h; cases h
    | ok q =>
      obtain ⟨st5, evP⟩ := q
      rw [hp] at h
      dsimp only at h
      by_cases hab : st5.aborting
      · rw [if_pos hab] at h
        cases h
        exact ⟨st1, ev1, st5, evP, rfl, hp, rfl, .inl ⟨hab, rfl, rfl⟩⟩
      · rw [if_neg hab] at h
        cases h
        exact ⟨st1, ev1, st5, evP, rfl, hp, rfl,
          .inr ⟨Bool.not_eq_true _ ▸ eq_false_of_ne_true hab, rfl, rfl⟩⟩

theorem ring_step_imported (st : Receiver) (b : Nat) (bid : Checksum256) :
    (ring_step st b bid).contract_abi_imported = st.contract_abi_imported := by
  unfold ring_step
  split_ifs <;> rfl

/-! Ring order lemmas. -/

theorem insertRecBlock_mem (e : ReceivedBlock) :
    ∀ (l : List ReceivedBlock) (x : ReceivedBlock),
      x ∈ insertRecBlock e l → x = e ∨ x ∈ l := by
  intro l
  induction l with
  | nil =>
    intro x hx
    rcases List.mem_singleton.mp hx with rfl
    exact .inl rfl
  | cons a l ih =>
    intro x hx
    unfold insertRecBlock at hx
    split_ifs at hx with h1 h2
    · rcases List.mem_cons.mp hx with rfl | h
      · exact .inl rfl
      · exact .inr h
    · exact .inr hx
    · rcases List.mem_cons.mp hx with rfl | h
      · exact .inr (List.mem_cons_self _ _)
      · rcases ih x h with h | h
        · exact .inl h
        · exact .inr (List.mem_cons_of_mem _ h)

theorem insertRecBlock_sorted (e : ReceivedBlock) :
    ∀ (l : List ReceivedBlock), ringSorted l → ringSorted (insertRecBlock e l) := by
  intro l
  induction l with
  | nil =>
    intro _
    exact List.pairwise_singleton _ _
  | cons a l ih =>
    intro hs
    unfold insertRecBlock
    split_ifs with h1 h2
    · refine List.pairwise_cons.mpr ⟨?_, hs⟩
      intro x hx
      rcases List.mem_cons.mp hx with rfl | hxl
      · omega
      · have := (List.pairwise_cons.mp hs).1 x hxl
        omega
    · exact hs
    · refine List.pairwise_cons.mpr ⟨?_, ih (List.pairwise_cons.mp hs).2⟩
      intro x hx
      rcases insertRecBlock_mem e l x hx with rfl | hxl
      · omega
      · exact (List.pairwise_cons.mp hs).1 x hxl

theorem dropWhile_lower (n : Nat) :
    ∀ (l : List ReceivedBlock), ringSorted l →
      ∀ x ∈ l.dropWhile (fun e => e.block_index < n), n ≤ x.block_index := by
  intro l
  induction l with
  | nil =>
    intro _ x hx
    cases hx
  | cons a l ih =>
    intro hs x hx
    rw [List.dropWhile_cons] at hx
    split_ifs at hx with hc
    · exact ih (List.pairwise_cons.mp hs).2 x hx
    · simp only [decide_eq_true_eq] at hc
      rcases List.mem_cons.mp hx with rfl | hxl
      · omega
      · have := (List.pairwise_cons.mp hs).1 x hxl
        omega

/-- On success, the current store data after fork_step is either unchanged or
one of the undo-stack snapshots (the fork rollback restores snapshots). -/
theorem fork_step_ok_cur (st : Receiver) (result : GetBlocksResult) (b : Nat)
    (st1 : Receiver) (ev1 : List Event)
    (hok : fork_step st result b = .ok (st1, ev1)) :
    st1.db.cur = st.db.cur ∨ ∃ p ∈ st.db.stack, st1.db.cur = p.2 := by
  have prov : ∀ d : Db, d.cur = st.db.cur → d.stack = st.db.stack →
      ((rollbackTo b d).cur = st.db.cur ∨ ∃ p ∈ st.db.stack, (rollbackTo b d).cur = p.2) := by
    intro d hdc hds
    rcases rollbackFuel_cur_provenance b d.stack.length d with h | ⟨p, hp, hc⟩
    · exact .inl (h.trans hdc)
    · exact .inr ⟨p, hds ▸ hp, hc⟩
  unfold fork_step at hok
  dsimp only at hok
  by_cases hlib : result.last_irreversible.block_num < b
  · rw [if_pos hlib] at hok
    by_cases hle : b ≤ st.head
    · rw [if_pos hle] at hok
      split_ifs at hok <;> cases hok <;> exact prov _ rfl rfl
    · rw [if_neg hle] at hok
      split_ifs at hok <;> cases hok <;> exact .inl rfl
  · rw [if_neg hlib] at hok
    split_ifs at hok <;> cases hok <;> exact .inl rfl

/-! Claim theorems. -/

/-- C2: for every Block Frame carrying this_block with block number b that is
processed successfully (no thrown error and the loop continues, i.e. not
aborting), the store revision afterwards equals b: the frame's undo scope is
materialized as revision b.  The hypotheses are the receiver's steady-state
invariants: the revision equals the head block, the undo-stack revisions
descend consecutively from it, the stack is deep enough to reach below a fork
point, and a block at or below the head only arrives as a fork (above the
last-irreversible number), as the state-history protocol guarantees. -/
theorem c2_revision_after_frame (env : Env) (subs : Subs) (st : Receiver)
    (result : GetBlocksResult) (tb : BlockPosition) (st' : Receiver) (evs : List Event)
    (htb : result.this_block = some tb)
    (hrev : st.db.rev = st.head)
    (hcons : st.db.stack.map Prod.fst = consecFrom st.db.rev st.db.stack.length)
    (hdepth : tb.block_num ≤ st.head → st.db.rev + 1 ≤ tb.block_num + st.db.stack.length)
    (hforkonly : tb.block_num ≤ st.head → result.last_irreversible.block_num < tb.block_num)
    (h : receive_result env subs st result = .ok (st', evs, true)) :
    st'.db.rev = tb.block_num := by
  obtain ⟨st1, ev1, st5, evP, hf, hp, hevs, hcase⟩ :=
    receive_result_ok_decomp env subs st result tb st' evs true htb h
  rcases hcase with ⟨_, hcf, _⟩ | ⟨_, _, hst'⟩
  · cases hcf
  · obtain ⟨h1rev, hb1⟩ :=
      fork_step_ok_rev st result tb.block_num st1 ev1 hf hrev hcons hdepth hforkonly
    have hpres := payload_step_preserves env subs _ st5 result evP hp
    have h5 : st5.db.rev = st1.db.rev :=
      hpres.1.trans (ring_step_fields st1 tb.block_num tb.block_id).1
    subst hst'
    show (((save_state st5).db.pushScope st1.db.cur).commit
      (commit_rev_of (save_state st5))).rev = tb.block_num
    rw [show (((save_state st5).db.pushScope st1.db.cur).commit
      (commit_rev_of (save_state st5))).rev = st5.db.rev + 1 from rfl]
    omega

theorem c2_witness :
    (okState (receive_result env0 subs0 init_receiver (mkFrame 100 95))).db.rev = 100 :=
  c2_revision_after_frame env0 subs0 init_receiver (mkFrame 100 95) ⟨100, 100⟩
    (okState (receive_result env0 subs0 init_receiver (mkFrame 100 95)))
    (okEvents (receive_result env0 subs0 init_receiver (mkFrame 100 95)))
    rfl rfl rfl (by decide) (by decide) (by rfl)

/-- C6: at the end of every successfully processed (non-aborting) Block
Frame, commit is invoked exactly once, with revision
min(irreversible_num, ack_enabled ? acked_block : irreversible_num), where
irreversible_num is the newly stored last-irreversible number. -/
theorem c6_commit_cursor (env : Env) (subs : Subs) (st : Receiver)
    (result : GetBlocksResult) (tb : BlockPosition) (st' : Receiver) (evs : List Event)
    (htb : result.this_block = some tb)
    (h : receive_result env subs st result = .ok (st', evs, true)) :
    st'.db.commits =
      (min st'.irreversible
        (if st'.exporter_will_ack then st'.exporter_acked_block else st'.irreversible))
      :: st.db.commits := by
  obtain ⟨st1, ev1, st5, evP, hf, hp, hevs, hcase⟩ :=
    receive_result_ok_decomp env subs st result tb st' evs true htb h
  rcases hcase with ⟨_, hcf, _⟩ | ⟨_, _, hst'⟩
  · cases hcf
  · obtain ⟨hP1, hP2, hP3, hP4, hP5, hP6, hP7, hP8, hP9, hP10, hP11, hP12, hP13⟩ :=
      payload_step_preserves env subs _ st5 result evP hp
    obtain ⟨hF1, hF2, hF3, hF4, hF5, hF6, hF7, hF8, hF9, hF10⟩ :=
      fork_step_ok_fields st result tb.block_num st1 ev1 hf
    obtain ⟨hR1, hR2, hR3, hR4, hR5, hR6, hR7, hR8, hR9, hR10⟩ :=
      ring_step_fields st1 tb.block_num tb.block_id
    have hcomm : st5.db.commits = st.db.commits := hP3.trans (hR3.trans hF9)
    have hack : st5.exporter_will_ack = st.exporter_will_ack := hP11.trans (hR9.trans hF6)
    have hacked : st5.exporter_acked_block = st.exporter_acked_block :=
      hP12.trans (hR10.trans hF7)
    subst hst'
    show commit_rev_of (save_state st5) :: st5.db.commits =
      (min st5.irreversible
        (if st5.exporter_will_ack then st5.exporter_acked_block else st5.irreversible))
      :: st.db.commits
    rw [hcomm]
    congr 1
    show (if st5.exporter_will_ack
          && decide (st5.exporter_acked_block < st5.irreversible)
        then st5.exporter_acked_block else st5.irreversible) =
        min st5.irreversible
          (if st5.exporter_will_ack then st5.exporter_acked_block
           else st5.irreversible)
    cases hw : st5.exporter_will_ack with
    | false => simp
    | true =>
      simp only [Bool.true_and, decide_eq_true_eq]
      rw [Nat.min_def]
      split_ifs <;> omega

theorem c6_witness :
    (okState (receive_result env0 subs0 init_receiver (mkFrame 100 95))).db.commits =
      min 95 95 :: init_receiver.db.commits := by
  have hc := c6_commit_cursor env0 subs0 init_receiver (mkFrame 100 95) ⟨100, 100⟩
    (okState (receive_result env0 subs0 init_receiver (mkFrame 100 95)))
    (okEvents (receive_result env0 subs0 init_receiver (mkFrame 100 95))) rfl (by rfl)
  rw [hc]
  rfl

/-- C4: a frame whose block number b is above the last-irreversible number
but at or below the current head is a fork: the receiver rebuilds the ABI
decode context from scratch (observable as the emptied imported set when no
deltas re-import), rolls the store back until its revision is below b
(landing at b - 1 under the reachable-state invariants), fails hard when the
rollback bottoms out at revision 0 (so a successful return implies the
revision stayed positive), and publishes exactly one fork_event — with
block_num b, depth head - b, reason network — before any other event of the
frame. -/
theorem c4_fork_handling (env : Env) (subs : Subs) (st : Receiver)
    (result : GetBlocksResult) (tb : BlockPosition) (st' : Receiver)
    (evs : List Event) (cont : Bool)
    (htb : result.this_block = some tb)
    (hlib : result.last_irreversible.block_num < tb.block_num)
    (hle : tb.block_num ≤ st.head)
    (hrev : st.db.rev = st.head)
    (hcons : st.db.stack.map Prod.fst = consecFrom st.db.rev st.db.stack.length)
    (hdepth : st.db.rev + 1 ≤ tb.block_num + st.db.stack.length)
    (hok : receive_result env subs st result = .ok (st', evs, cont)) :
    (rollbackTo tb.block_num st.db).rev = tb.block_num - 1 ∧
    0 < (rollbackTo tb.block_num st.db).rev ∧
    evs.head? = some (Event.fork tb.block_num (st.head - tb.block_num) ForkReason.network) ∧
    evs.tail.all (fun e => !e.isFork) = true ∧
    (result.deltas = none → st'.contract_abi_imported = []) := by
  have hb1 : 1 ≤ tb.block_num := by omega
  have hroll : (rollbackTo tb.block_num st.db).rev = tb.block_num - 1 :=
    rollbackTo_rev tb.block_num st.db hb1 hcons (by omega) hdepth
  obtain ⟨st1, ev1, st5, evP, hf, hp, hevs, hcase⟩ :=
    receive_result_ok_decomp env subs st result tb st' evs cont htb hok
  have hnlt : ¬ st.db.rev < tb.block_num := by omega
  obtain ⟨hst1, hev1, hnot0⟩ :=
    fork_step_fork_ok st result tb.block_num st1 ev1 hf hlib hle hnlt
  have hnf := payload_step_events_not_fork env subs _ result st5 evP hp
  refine ⟨hroll, by omega, ?_, ?_, ?_⟩
  · rw [hevs, hev1]
    rfl
  · rw [hevs, hev1, List.singleton_append, List.tail_cons, List.all_eq_true]
    intro e he
    simp [hnf e he]
  · intro hnd
    have h5i := payload_step_imported_of_no_deltas env subs _ result st5 evP hp hnd
    have h1i : st1.contract_abi_imported = [] := by rw [hst1]
    rcases hcase with ⟨_, _, hst'⟩ | ⟨_, _, hst'⟩ <;> subst hst' <;>
      · show st5.contract_abi_imported = []
        rw [h5i]
        show (ring_step st1 tb.block_num tb.block_id).contract_abi_imported = []
        rw [ring_step_imported]
        exact h1i

theorem c4_witness :
    (okEvents (receive_result env0 subs0 c4_start c4_frame)).head? =
      some (Event.fork 11 1 ForkReason.network) ∧
    (okState (receive_result env0 subs0 c4_start c4_frame)).contract_abi_imported = [] :=
  have hX := c4_fork_handling env0 subs0 c4_start c4_frame ⟨11, 1111⟩
    (okState (receive_result env0 subs0 c4_start c4_frame))
    (okEvents (receive_result env0 subs0 c4_start c4_frame)) true
    rfl (by decide) (by decide) (by decide) (by decide) (by decide) (by rfl)
  ⟨hX.2.2.1, hX.2.2.2.2 rfl⟩

/-- C3 counterexample: running the clean advance 100..106 (last-irreversible
95..101) from scratch leaves ring entry 100 in place while the (post-frame)
irreversible number is 101 — pruning uses the pre-frame irreversible value,
so the claimed invariant fails after the seventh frame. -/
theorem c3_counterexample :
    (⟨100, 100⟩ : ReceivedBlock) ∈
      (runState (run_frames env0 subs0 init_receiver c3_frames)).db.cur.recblocks ∧
    (runState (run_frames env0 subs0 init_receiver c3_frames)).irreversible = 101 ∧
    (100 : Nat) < 101 := by
  decide

/-- C3 (amended): after a successfully processed Block Frame whose block
number exceeds the pre-frame irreversible number, every entry of the
Received Block Ring has block_index at least the PRE-frame irreversible
number (the value the pruning loop actually compares against); entries below
the newly received last-irreversible number may survive until a later frame
prunes them. -/
theorem c3_ring_pruning (env : Env) (subs : Subs) (st : Receiver)
    (result : GetBlocksResult) (tb : BlockPosition) (st' : Receiver) (evs : List Event)
    (htb : result.this_block = some tb)
    (hgt : st.irreversible < tb.block_num)
    (hsorted : ringSorted st.db.cur.recblocks)
    (hstack : ∀ p ∈ st.db.stack, ringSorted p.2.recblocks)
    (hok : receive_result env subs st result = .ok (st', evs, true)) :
    st'.db.cur.recblocks.all (fun x => decide (st.irreversible ≤ x.block_index)) = true := by
  obtain ⟨st1, ev1, st5, evP, hf, hp, hevs, hcase⟩ :=
    receive_result_ok_decomp env subs st result tb st' evs true htb hok
  rcases hcase with ⟨_, hcf, _⟩ | ⟨_, _, hst'⟩
  · cases hcf
  · obtain ⟨hF1, hF2, hF3, hF4, hF5, hF6, hF7, hF8, hF9, hF10⟩ :=
      fork_step_ok_fields st result tb.block_num st1 ev1 hf
    have hcur1 : ringSorted st1.db.cur.recblocks := by
      rcases fork_step_ok_cur st result tb.block_num st1 ev1 hf with h | ⟨p, hp2, hc⟩
      · rw [h]; exact hsorted
      · rw [hc]; exact hstack p hp2
    have hcond : st1.irreversible < tb.block_num := by rw [hF3]; exact hgt
    have hP4 := (payload_step_preserves env subs _ st5 result evP hp).2.2.2.1
    subst hst'
    rw [List.all_eq_true]
    intro x hx
    have hx5 : x ∈ st5.db.cur.recblocks := hx
    rw [hP4] at hx5
    have hx2 : x ∈ (ring_step st1 tb.block_num tb.block_id).db.cur.recblocks := hx5
    unfold ring_step at hx2
    rw [if_pos hcond] at hx2
    dsimp only at hx2
    have := dropWhile_lower st1.irreversible
      (insertRecBlock ⟨tb.block_num, tb.block_id⟩ st1.db.cur.recblocks)
      (insertRecBlock_sorted _ _ hcur1) x hx2
    rw [hF3] at this
    simp [this]

theorem c3_witness :
    ((okState (receive_result env0 subs0 c3_start (mkFrame 106 101))).db.cur.recblocks.all
      (fun x => decide (c3_start.irreversible ≤ x.block_index))) = true :=
  c3_ring_pruning env0 subs0 c3_start (mkFrame 106 101) ⟨106, 106⟩
    (okState (receive_result env0 subs0 c3_start (mkFrame 106 101)))
    (okEvents (receive_result env0 subs0 c3_start (mkFrame 106 101)))
    rfl (by decide) (by decide) (by decide) (by rfl)

/-- C9: for every successfully decoded get_blocks_result_v0 frame whose
this_block field is absent, receive_result returns true and leaves the whole
receiver (store revision, undo stack, ring, state fields, ABI records,
imported set) unchanged, publishing no event. -/
theorem c9_absent_this_block (env : Env) (subs : Subs) (st : Receiver)
    (result : GetBlocksResult) (h : result.this_block = none) :
    receive_result env subs st result = .ok (st, [], true) := by
  unfold receive_result
  rw [h]

theorem c9_witness :
    receive_result env0 subs0 init_receiver
      ⟨⟨5, 5⟩, ⟨3, 3⟩, none, none, none, none, none⟩ = .ok (init_receiver, [], true) :=
  c9_absent_this_block env0 subs0 init_receiver _ rfl

/-- C5: a frame above the last-irreversible number and above the current head
whose prev_block is absent or does not match the stored head id raises the
hard protocol error (while the head is nonzero), before any undo scope is
opened — the functional model returns the error with no state change and no
published event. -/
theorem c5_prev_mismatch (env : Env) (subs : Subs) (st : Receiver)
    (result : GetBlocksResult) (tb : BlockPosition)
    (htb : result.this_block = some tb)
    (hlib : result.last_irreversible.block_num < tb.block_num)
    (hhead : st.head < tb.block_num)
    (hpos : 0 < st.head)
    (hprev : ∀ pb, result.prev_block = some pb → pb.block_id ≠ st.head_id) :
    receive_result env subs st result = .error "prev_block does not match" := by
  have h1 : ¬ tb.block_num ≤ st.head := by omega
  have hpm : (match result.prev_block with
              | none => true
              | some pb => pb.block_id != st.head_id) = true := by
    cases hp : result.prev_block with
    | none => rfl
    | some pb => simp [bne, hprev pb hp]
  simp [receive_result, fork_step, htb, hlib, h1, hpm, hpos]

theorem c5_witness :
    receive_result env0 subs0 { init_receiver with head := 10, head_id := 10 }
      ⟨⟨12, 12⟩, ⟨9, 9⟩, some ⟨12, 12⟩, some ⟨11, 999⟩, none, none, none⟩ =
      .error "prev_block does not match" :=
  c5_prev_mismatch env0 subs0 _ _ ⟨12, 12⟩ rfl (by decide) (by decide) (by decide)
    (fun pb hpb => by cases hpb; decide)

/-- C7: when installing a new contract ABI into the decode context fails,
save_contract_abi publishes exactly one abi_error event and leaves the whole
persistent store — in particular every contract_abi record — untouched. -/
theorem c7_abi_install_failure (env : Env) (subs : Subs) (st : Receiver)
    (account : Name) (data : List Nat)
    (h : env.validAbi account data = false) :
    (save_contract_abi env subs st account data).2 =
      [Event.abiError st.head account "invalid abi"] ∧
    (save_contract_abi env subs st account data).1.db = st.db := by
  unfold save_contract_abi
  cases hc : st.contract_abi_imported.contains account <;> simp [hc, h]

theorem c7_witness :
    (save_contract_abi ⟨fun _ _ => false, fun _ => true⟩ subs0 init_receiver "acc" [1]).2 =
      [Event.abiError init_receiver.head "acc" "invalid abi"] ∧
    (save_contract_abi ⟨fun _ _ => false, fun _ => true⟩ subs0 init_receiver "acc" [1]).1.db =
      init_receiver.db :=
  c7_abi_install_failure ⟨fun _ _ => false, fun _ => true⟩ subs0 init_receiver "acc" [1] rfl

/-- C8: a decoded transaction trace whose first action's (account, name) pair
is present in the configured action blacklist is never published on the
transaction_traces channel; the default blacklist contains (eosio, onblock)
and (blocktwitter, tweet). -/
theorem c8_blacklist_drops_trace :
    (∀ (bl : List (Name × List Name)) (subscribed : Bool) (head : Nat)
       (trs : List TransactionTrace) (tr : TransactionTrace),
        tr ∈ trs → first_action_blacklisted bl tr = true →
        Event.transactionTrace head tr ∉ receive_traces bl subscribed head trs) ∧
    first_action_blacklisted default_blacklist ⟨[⟨"eosio", "onblock"⟩]⟩ = true ∧
    first_action_blacklisted default_blacklist ⟨[⟨"blocktwitter", "tweet"⟩]⟩ = true := by
  refine ⟨?_, by decide, by decide⟩
  intro bl subscribed head trs tr hmem hbl hcontra
  cases subscribed with
  | false => simp [receive_traces] at hcontra
  | true =>
    simp only [receive_traces, if_true] at hcontra
    rw [List.mem_filterMap] at hcontra
    obtain ⟨a, ha, hfa⟩ := hcontra
    by_cases hba : first_action_blacklisted bl a = true
    · rw [if_pos hba] at hfa; cases hfa
    · rw [if_neg hba] at hfa
      injection hfa with hfa2
      injection hfa2 with hh ht
      rw [ht] at hba
      exact hba hbl

theorem c8_witness :
    Event.transactionTrace 7 ⟨[⟨"eosio", "onblock"⟩]⟩ ∉
      receive_traces default_blacklist true 7 [⟨[⟨"eosio", "onblock"⟩]⟩] :=
  c8_blacklist_drops_trace.1 default_blacklist true 7 _ _
    (List.mem_singleton.mpr rfl) (by decide)

/-- C10: a decoded transaction trace with no action traces is never
classified as blacklisted, so with subscribers on the transaction_traces
channel it is always published. -/
theorem c10_empty_trace_published (bl : List (Name × List Name)) (head : Nat)
    (trs : List TransactionTrace) (tr : TransactionTrace)
    (hmem : tr ∈ trs) (hempty : tr.traces = []) :
    Event.transactionTrace head tr ∈ receive_traces bl true head trs := by
  have hnb : first_action_blacklisted bl tr = false := by
    unfold first_action_blacklisted
    rw [hempty]
  simp only [receive_traces, if_true]
  rw [List.mem_filterMap]
  exact ⟨tr, hmem, by rw [if_neg (by simp [hnb])]⟩

theorem c10_witness :
    Event.transactionTrace 7 ⟨[]⟩ ∈ receive_traces default_blacklist true 7 [⟨[]⟩] :=
  c10_empty_trace_published default_blacklist 7 _ _ (List.mem_singleton.mpr rfl) rfl

/-! Backpressure (C1). -/

theorem check_pause_backpressure (head acked p : Nat) (h : 1 ≤ sub32 head acked) :
    check_pause (backpressureState head acked p) =
      { proceed := false
        slowdown_requested := false
        pause_time_msec := if p = 0 then 100 else if p < 8000 then p * 2 % 2 ^ 32 else p
        events := if 2000 ≤ (if p = 0 then 100 else if p < 8000 then p * 2 % 2 ^ 32 else p)
                  then [Event.receiverPause head acked] else [] } := by
  unfold check_pause backpressureState
  simp [h]

theorem pauseIter_eq_pseq (head acked : Nat) (h : 1 ≤ sub32 head acked) :
    ∀ n, pauseIter head acked n = pseq n := by
  intro n
  induction n with
  | zero => rfl
  | succ n ih =>
    show (check_pause (backpressureState head acked (pauseIter head acked n))).pause_time_msec
       = pseq (n + 1)
    rw [check_pause_backpressure _ _ _ h, ih]
    simp [pseq]

theorem pseq_steady : ∀ n, 8 ≤ n → pseq n = 12800 := by
  intro n hn
  induction n with
  | zero => omega
  | succ n ih =>
    rcases Nat.lt_or_ge n 8 with hl | hg
    · have h7 : n = 7 := by omega
      subst h7
      decide
    · have h12 := ih hg
      show (let p := pseq n; if p = 0 then 100 else if p < 8000 then p * 2 % 2 ^ 32 else p) = 12800
      rw [h12]
      norm_num

/-- C1 (corrected): when check_pause decides to pause it clears
slowdown_requested and sets pause_time_msec to 100 if it was 0, doubling it
only while it is below 8000 (so it never moves once at or above 8000).
Consequently, with acknowledgement enabled, max_unconfirmed = 1 and no acks,
the successive pause durations are 100, 200, 400, 800, 1600, 3200, 6400,
12800, 12800, ..., and a receiver_pause event is published exactly on those
pauses whose resulting duration is at least 2000 ms. -/
theorem c1_backpressure_sequence (head acked : Nat) (h : 1 ≤ sub32 head acked) :
    (∀ n, (check_pause (backpressureState head acked (pauseIter head acked n))).proceed = false) ∧
    (List.range 9).map (fun n => pauseIter head acked (n + 1)) =
      [100, 200, 400, 800, 1600, 3200, 6400, 12800, 12800] ∧
    (∀ n, 8 ≤ n → pauseIter head acked n = 12800) ∧
    (∀ n, (check_pause (backpressureState head acked (pauseIter head acked n))).events =
      if 2000 ≤ pauseIter head acked (n + 1) then [Event.receiverPause head acked] else []) := by
  refine ⟨?_, ?_, ?_, ?_⟩
  · intro n
    rw [check_pause_backpressure _ _ _ h]
  · simp only [pauseIter_eq_pseq head acked h]
    decide
  · intro n hn
    rw [pauseIter_eq_pseq head acked h]
    exact pseq_steady n hn
  · intro n
    have hstep : pauseIter head acked (n + 1) =
        (check_pause (backpressureState head acked (pauseIter head acked n))).pause_time_msec := rfl
    rw [check_pause_backpressure _ _ _ h] at hstep
    rw [check_pause_backpressure _ _ _ h, hstep]

theorem c1_witness :
    1 ≤ sub32 1 0 ∧
    (List.range 9).map (fun n => pauseIter 1 0 (n + 1)) =
      [100, 200, 400, 800, 1600, 3200, 6400, 12800, 12800] :=
  ⟨by decide, (c1_backpressure_sequence 1 0 (by decide)).2.1⟩

/-- C1 counterexample: from the reachable pause value 6400 (the seventh
pause), a pausing check_pause sets pause_time_msec to 12800, not to
min(6400 * 2, 8000) = 8000, so the claimed update rule and the claimed
eighth element of 8000 are both wrong. -/
theorem c1_counterexample :
    pauseIter 1 0 7 = 6400 ∧
    pauseIter 1 0 8 = 12800 ∧
    (check_pause (backpressureState 1 0 6400)).pause_time_msec = 12800 ∧
    min (6400 * 2) 8000 = 8000 ∧ (12800 : Nat) ≠ 8000 := by
  decide

end Chronicle
